import Mathlib

/-
Shallow embedding of src/wak.py, the wak archive codec.

Modelling conventions:
- Python `str` values are lists of Unicode code points (`List Nat`);
  Python string comparison (`<`, `>`) is code-point lexicographic.
- Python `bytes` / `bytearray` values are lists of byte values (`List Nat`).
- Python slicing `data[i : j]` clamps to the buffer, so `Reader.read_bytes`
  and `Reader.bytes_at` are total and return possibly-short lists.
- `int.to_bytes(length, "little")` raises `OverflowError` when the value does
  not fit, so `Writer.write_le` (and everything built on it) returns `Option`.
- `bytes.decode("utf-8")` raises `UnicodeDecodeError` on invalid input and
  `str.encode()` raises on surrogates, modelled with `Option` results.
- `assert cond, reason` raising `AssertionError` and the decode error are
  collected in `PyError`; `parse_wak` returns `Except PyError`.
-/

namespace Wak

/-- One archive entry: dataclass `File` (wak.py lines 114-117). -/
structure File where
  path : List Nat
  content : List Nat
deriving DecidableEq

/-- Exceptions the modelled code can raise. -/
inductive PyError where
  | assertionError (reason : String)
  | unicodeDecodeError
deriving DecidableEq

/-- Little-endian value of a byte list: `sum(0x100**i * v for i, v in
enumerate(bytes))` (wak.py line 21), computed by structural recursion. -/
def leVal : List Nat → Nat
  | [] => 0
  | b :: bs => b + 0x100 * leVal bs

/-- The `length`-byte little-endian representation of `v`, as produced by
`int.to_bytes(length, "little")` for in-range values. -/
def leBytes : Nat → Nat → List Nat
  | _, 0 => []
  | v, n + 1 => v % 0x100 :: leBytes (v / 0x100) n

/-- UTF-8 encoding of a single code point (1 to 4 bytes). -/
def utf8EncodeCp (n : Nat) : List Nat :=
  if n < 0x80 then [n]
  else if n < 0x800 then [0xC0 + n / 0x40, 0x80 + n % 0x40]
  else if n < 0x10000 then
    [0xE0 + n / 0x1000, 0x80 + n / 0x40 % 0x40, 0x80 + n % 0x40]
  else
    [0xF0 + n / 0x40000, 0x80 + n / 0x1000 % 0x40, 0x80 + n / 0x40 % 0x40,
      0x80 + n % 0x40]

/-- UTF-8 encoding of a string (`str.encode()` on valid input). -/
def utf8Encode (s : List Nat) : List Nat := (s.map utf8EncodeCp).flatten

/-- A code point a Python `str.encode()` accepts: everything except the
surrogate range, below 0x110000. -/
def validCp (c : Nat) : Prop := c < 0xD800 ∨ (0xE000 ≤ c ∧ c < 0x110000)

instance (c : Nat) : Decidable (validCp c) := by
  unfold validCp
  infer_instance

/-- Python `str.encode()`: UTF-8 bytes, or failure on a lone surrogate /
out-of-range code point. -/
def encodeStr? (s : List Nat) : Option (List Nat) :=
  if ∀ c ∈ s, validCp c then some (utf8Encode s) else none

/-- Decode one UTF-8 sequence from the front of a byte list, strictly (no
overlong forms, no surrogates), returning the code point and the remaining
bytes; that is how Python `bytes.decode("utf-8")` consumes one character. -/
def utf8DecodeCp? : List Nat → Option (Nat × List Nat)
  | [] => none
  | b :: rest =>
    if b < 0x80 then some (b, rest)
    else if 0xC2 ≤ b ∧ b ≤ 0xDF then
      match rest with
      | b1 :: rest1 =>
        if 0x80 ≤ b1 ∧ b1 < 0xC0 then
          some ((b - 0xC0) * 0x40 + (b1 - 0x80), rest1)
        else none
      | [] => none
    else if 0xE0 ≤ b ∧ b ≤ 0xEF then
      match rest with
      | b1 :: b2 :: rest2 =>
        if (if b = 0xE0 then 0xA0 ≤ b1 ∧ b1 < 0xC0
            else if b = 0xED then 0x80 ≤ b1 ∧ b1 < 0xA0
            else 0x80 ≤ b1 ∧ b1 < 0xC0) ∧ 0x80 ≤ b2 ∧ b2 < 0xC0 then
          some ((b - 0xE0) * 0x1000 + (b1 - 0x80) * 0x40 + (b2 - 0x80), rest2)
        else none
      | _ => none
    else if 0xF0 ≤ b ∧ b ≤ 0xF4 then
      match rest with
      | b1 :: b2 :: b3 :: rest3 =>
        if (if b = 0xF0 then 0x90 ≤ b1 ∧ b1 < 0xC0
            else if b = 0xF4 then 0x80 ≤ b1 ∧ b1 < 0x90
            else 0x80 ≤ b1 ∧ b1 < 0xC0) ∧
            (0x80 ≤ b2 ∧ b2 < 0xC0) ∧ (0x80 ≤ b3 ∧ b3 < 0xC0) then
          some ((b - 0xF0) * 0x40000 + (b1 - 0x80) * 0x1000 +
            (b2 - 0x80) * 0x40 + (b3 - 0x80), rest3)
        else none
      | _ => none
    else none

/-- Fuel-indexed driver for UTF-8 decoding; the fuel only needs to dominate
the list length (each step consumes at least one byte). -/
def utf8DecodeAux : Nat → List Nat → Option (List Nat)
  | _, [] => some []
  | 0, _ :: _ => none
  | fuel + 1, b :: rest =>
    match utf8DecodeCp? (b :: rest) with
    | none => none
    | some (c, rest1) =>
      match utf8DecodeAux fuel rest1 with
      | none => none
      | some cs => some (c :: cs)

/-- Python `bytes.decode("utf-8")`: the decoded string, or failure. -/
def utf8Decode? (l : List Nat) : Option (List Nat) := utf8DecodeAux l.length l

/-- `Reader` dataclass (wak.py lines 15-37): a byte buffer and a cursor. -/
structure Reader where
  data : List Nat
  ptr : Nat

/-- `Reader.read_bytes` (wak.py lines 28-31): `data[ptr : ptr + count]`
(clamped Python slice), advancing `ptr` by `count` unconditionally. -/
def Reader.read_bytes (r : Reader) (count : Nat) : List Nat × Reader :=
  ((r.data.drop r.ptr).take count, ⟨r.data, r.ptr + count⟩)

/-- `Reader.read_le` (wak.py lines 20-21). -/
def Reader.read_le (r : Reader) (count : Nat) : Nat × Reader :=
  let p := r.read_bytes count
  (leVal p.1, p.2)

/-- `Reader.read_str` (wak.py lines 23-26): length-prefixed UTF-8 string;
`none` in the first component models a raised `UnicodeDecodeError`. -/
def Reader.read_str (r : Reader) (length_count : Nat) :
    Option (List Nat) × Reader :=
  let p := r.read_le length_count
  let q := p.2.read_bytes p.1
  (utf8Decode? q.1, q.2)

/-- `Reader.bytes_at` (wak.py lines 33-34): `data[addr : addr + count]`,
independent of the cursor. -/
def Reader.bytes_at (r : Reader) (addr count : Nat) : List Nat :=
  (r.data.drop addr).take count

/-- `Reader.assertion` (wak.py lines 36-37): consume `len(data)` bytes and
raise `AssertionError reason` unless they equal `data`. -/
def Reader.assertion (r : Reader) (data : List Nat) (reason : String) :
    Except PyError Reader :=
  let p := r.read_bytes data.length
  if p.1 = data then .ok p.2 else .error (.assertionError reason)

/-- The per-entry loop of `parse_wak` (wak.py lines 135-141): read a table
record, resolve its content by an absolute slice of the whole buffer. -/
def parseEntries (reader : Reader) : Nat → Except PyError (List File)
  | 0 => .ok []
  | n + 1 =>
    let p1 := reader.read_le 4
    let addr := p1.1
    let p2 := p1.2.read_le 4
    let size := p2.1
    match p2.2.read_str 4 with
    | (none, _) => .error .unicodeDecodeError
    | (some path, r3) =>
      let content := r3.bytes_at addr size
      match parseEntries r3 n with
      | .error e => .error e
      | .ok rest => .ok (⟨path, content⟩ :: rest)

/-- `parse_wak` (wak.py lines 120-143), with the archive bytes already read
from disk (the verbose display is pure printing and has no data effect). -/
def parse_wak (data : List Nat) : Except PyError (List File) := do
  let reader : Reader := ⟨data, 0⟩
  let reader ← reader.assertion [0, 0, 0, 0] "header start"
  let p1 := reader.read_le 4
  let file_count := p1.1
  let p2 := p1.2.read_le 4
  let _first_file := p2.1
  let reader ← p2.2.assertion [0, 0, 0, 0] "header end"
  parseEntries reader file_count

/-- `Writer` dataclass (wak.py lines 44-59). -/
structure Writer where
  data : List Nat

/-- `Writer.write_bytes` (wak.py lines 55-59): append, or Python
slice-assignment `data[at : len(data) + at] = data` in patch mode. -/
def Writer.write_bytes (w : Writer) (data : List Nat) (at? : Option Nat) :
    Writer :=
  match at? with
  | none => ⟨w.data ++ data⟩
  | some a => ⟨w.data.take a ++ data ++ w.data.drop (a + data.length)⟩

/-- `Writer.write_le` (wak.py lines 48-49); `none` models the
`OverflowError` from `int.to_bytes` when the value does not fit. -/
def Writer.write_le (w : Writer) (value length : Nat) (at? : Option Nat) :
    Option Writer :=
  if value < 0x100 ^ length then some (w.write_bytes (leBytes value length) at?)
  else none

/-- `Writer.write_str` (wak.py lines 51-53): length then raw bytes, the
patch offset shifted by 4 via `fmap` (wak.py lines 40-41). -/
def Writer.write_str (w : Writer) (s : List Nat) (length_count : Nat)
    (at? : Option Nat) : Option Writer :=
  (w.write_le s.length length_count at?).map
    (fun w1 => w1.write_bytes s (at?.map (fun x => x + 4)))

/-- `write_file_header` (wak.py lines 196-199): addr, size, then the
length-prefixed UTF-8 encoded path. -/
def write_file_header (writer : Writer) (start : Nat) (file : File) :
    Option Writer := do
  let w1 ← writer.write_le start 4 none
  let w2 ← w1.write_le file.content.length 4 none
  match encodeStr? file.path with
  | none => none
  | some pb => w2.write_str pb 4 none

/-- `write_file_content` (wak.py lines 202-204): raw content then one zero
padding byte. -/
def write_file_content (writer : Writer) (file : File) : Writer :=
  (writer.write_bytes file.content none).write_bytes [0] none

/-- `start_offset = 16 + sum(12 + len(file.path) for file in files)`
(wak.py line 214). Note `len(file.path)` is a character count. -/
def startOff (files : List File) : Nat :=
  16 + (files.map (fun file => 12 + file.path.length)).sum

/-- The table-writing loop of `save_wak` (wak.py lines 223-225): write each
header, advancing the running offset by `len(content) + 1`. -/
def writeHeaders : Writer → Nat → List File → Option (Writer × Nat)
  | w, start_offset, [] => some (w, start_offset)
  | w, start_offset, file :: rest => do
    let w1 ← write_file_header w start_offset file
    writeHeaders w1 (start_offset + file.content.length + 1) rest

/-- `save_wak` (wak.py lines 207-229), returning the archive bytes instead
of writing them to disk; `none` models any raised exception. -/
def save_wak (files : List File) : Option (List Nat) := do
  let writer : Writer := ⟨[]⟩
  let start_offset := startOff files
  let w1 := writer.write_bytes [0, 0, 0, 0] none
  let w2 ← w1.write_le files.length 4 none
  let w3 ← w2.write_le start_offset 4 none
  let w4 := w3.write_bytes [0, 0, 0, 0] none
  let p ← writeHeaders w4 start_offset files
  let w6 := files.foldl write_file_content p.1
  some w6.data

/-- Python string comparison `a < b`: code-point lexicographic. -/
def pyStrLt : List Nat → List Nat → Bool
  | [], [] => false
  | [], _ :: _ => true
  | _ :: _, [] => false
  | a :: l1, b :: l2 => if a = b then pyStrLt l1 l2 else decide (a < b)

/-- Python string comparison `a > b`. -/
def pyStrGt (a b : List Nat) : Bool := pyStrLt b a

/-- `str_gt` (wak.py lines 150-159): character-wise comparison where an
underscore (code point 95) beats any other character, falling back to plain
Python string comparison. -/
def str_gt : List Nat → List Nat → Bool
  | [], b => pyStrGt [] b
  | a :: l1, [] => pyStrGt (a :: l1) []
  | a :: l1, b :: l2 =>
    if a = 95 ∧ b ≠ 95 then true
    else if a ≠ 95 ∧ b = 95 then false
    else if a = b then str_gt l1 l2
    else pyStrGt (a :: l1) (b :: l2)

/-- The strict "less" order induced by `str_gt` with its arguments swapped,
as produced by `cmp_to_cmp` (wak.py lines 146-147, 169). -/
def str_less (a b : List Nat) : Bool := str_gt b a

/-- `a` is a prefix of `b` (decidable phrasing). -/
def strPre (a b : List Nat) : Prop := b.take a.length = a

instance (a b : List Nat) : Decidable (strPre a b) := by
  unfold strPre
  infer_instance

/-- The bytes of one file-table record as `write_file_header` appends them:
addr, size, path byte length, path bytes. -/
def recordBytes (s : Nat) (file : File) : List Nat :=
  leBytes s 4 ++ leBytes file.content.length 4 ++
    leBytes (utf8Encode file.path).length 4 ++ utf8Encode file.path

/-- The bytes of the whole file table starting from running offset `s`,
following the running-offset recurrence of the `save_wak` loop. -/
def tableBytes : List File → Nat → List Nat
  | [], _ => []
  | f :: fs, s => recordBytes s f ++ tableBytes fs (s + f.content.length + 1)

/-- The content region: each file's bytes followed by one zero pad byte. -/
def contentBytes (files : List File) : List Nat :=
  (files.map (fun f => f.content ++ [0])).flatten

/-- The addr fields of the table records, via the same running-offset
recurrence. -/
def tableAddrs : List File → Nat → List Nat
  | [], _ => []
  | f :: fs, s => s :: tableAddrs fs (s + f.content.length + 1)

/-- The entries `parseEntries` produces when it walks a table generated by
the running-offset recurrence over `data`: the paths are kept, and each
content is the absolute clamped slice of `data` at the recorded range. -/
def entriesFrom (data : List Nat) : List File → Nat → List File
  | [], _ => []
  | f :: fs, s =>
    ⟨f.path, (data.drop s).take f.content.length⟩ ::
      entriesFrom data fs (s + f.content.length + 1)

/-! Basic lemmas about the byte-level primitives -/

theorem length_leBytes (v n : Nat) : (leBytes v n).length = n := by
  induction n generalizing v with
  | zero => rfl
  | succ n ih => simp [leBytes, ih]

theorem leVal_leBytes (v n : Nat) (h : v < 0x100 ^ n) :
    leVal (leBytes v n) = v := by
  induction n generalizing v with
  | zero =>
    simp [Nat.pow_zero] at h
    simp [leBytes, leVal, h]
  | succ n ih =>
    have hdiv : v / 0x100 < 0x100 ^ n := by
      rw [Nat.div_lt_iff_lt_mul (by norm_num)]
      calc v < 0x100 ^ (n + 1) := h
        _ = 0x100 ^ n * 0x100 := by ring
    simp only [leBytes, leVal, ih (v / 0x100) hdiv]
    omega

/-- Splitting a drop of the buffer along a known leading block. -/
theorem drop_split {data xs rest : List Nat} {p n : Nat}
    (h : data.drop p = xs ++ rest) (hn : xs.length = n) :
    (data.drop p).take n = xs ∧ data.drop (p + n) = rest := by
  constructor
  · rw [h, List.take_left' hn]
  · rw [← List.drop_drop, h, List.drop_left' hn]

/-! Sanity examples (concrete evaluations of the model) -/

example : parse_wak [0, 0, 0, 0, 0, 0, 0, 0, 0, 0, 0, 0, 0, 0, 0, 0] =
    .ok [] := by rfl

example : save_wak [] = some [0, 0, 0, 0, 0, 0, 0, 0, 16, 0, 0, 0, 0, 0, 0, 0] := by
  rfl

example : save_wak [⟨[97], [10, 20]⟩] =
    some [0, 0, 0, 0, 1, 0, 0, 0, 29, 0, 0, 0, 0, 0, 0, 0,
      29, 0, 0, 0, 2, 0, 0, 0, 1, 0, 0, 0, 97, 10, 20, 0] := by rfl

example : parse_wak [0, 0, 0, 0, 1, 0, 0, 0, 29, 0, 0, 0, 0, 0, 0, 0,
      29, 0, 0, 0, 2, 0, 0, 0, 1, 0, 0, 0, 97, 10, 20, 0] =
    .ok [⟨[97], [10, 20]⟩] := by rfl

example : save_wak [⟨[233], [88]⟩] =
    some [0, 0, 0, 0, 1, 0, 0, 0, 29, 0, 0, 0, 0, 0, 0, 0,
      29, 0, 0, 0, 1, 0, 0, 0, 2, 0, 0, 0, 195, 169, 88, 0] := by rfl

example : parse_wak [0, 0, 0, 0, 1, 0, 0, 0, 29, 0, 0, 0, 0, 0, 0, 0,
      29, 0, 0, 0, 1, 0, 0, 0, 2, 0, 0, 0, 195, 169, 88, 0] =
    .ok [⟨[233], [169]⟩] := by rfl

/-! Step lemmas for the parser -/

theorem exceptBindOk {ε α β : Type} (x : α) (f : α → Except ε β) :
    (Except.ok x >>= f) = f x := rfl

theorem exceptBindErr {ε α β : Type} (e : ε) (f : α → Except ε β) :
    (Except.error e >>= f) = (Except.error e : Except ε β) := rfl

theorem assertion_ok {data : List Nat} {p : Nat} (reason : String)
    (h : (data.drop p).take 4 = [0, 0, 0, 0]) :
    (Reader.mk data p).assertion [0, 0, 0, 0] reason = .ok ⟨data, p + 4⟩ := by
  simp [Reader.assertion, Reader.read_bytes, h]

theorem assertion_err {data : List Nat} {p : Nat} (reason : String)
    (h : (data.drop p).take 4 ≠ [0, 0, 0, 0]) :
    (Reader.mk data p).assertion [0, 0, 0, 0] reason =
      .error (.assertionError reason) := by
  simp [Reader.assertion, Reader.read_bytes, h]

/-- When both magic checks pass, `parse_wak` runs the entry loop from
offset 16 with the entry count read from bytes 4..7. -/
theorem parse_wak_eq (data : List Nat)
    (h0 : data.take 4 = [0, 0, 0, 0])
    (h12 : (data.drop 12).take 4 = [0, 0, 0, 0]) :
    parse_wak data = parseEntries ⟨data, 16⟩ (leVal ((data.drop 4).take 4)) := by
  have a1 := @assertion_ok data 0 "header start"
    (by simpa using h0)
  have a2 := @assertion_ok data 12 "header end" h12
  simp only [parse_wak, Reader.read_le, Reader.read_bytes]
  rw [a1, exceptBindOk]
  rw [a2, exceptBindOk]

theorem parse_wak_err_start (data : List Nat)
    (h0 : data.take 4 ≠ [0, 0, 0, 0]) :
    parse_wak data = .error (.assertionError "header start") := by
  have a1 := @assertion_err data 0 "header start"
    (by simpa using h0)
  simp only [parse_wak]
  rw [a1, exceptBindErr]

theorem parse_wak_err_end (data : List Nat)
    (h0 : data.take 4 = [0, 0, 0, 0])
    (h12 : (data.drop 12).take 4 ≠ [0, 0, 0, 0]) :
    parse_wak data = .error (.assertionError "header end") := by
  have a1 := @assertion_ok data 0 "header start"
    (by simpa using h0)
  have a2 := @assertion_err data 12 "header end" h12
  simp only [parse_wak, Reader.read_le, Reader.read_bytes]
  rw [a1, exceptBindOk]
  rw [a2, exceptBindErr]

/-! Truncated buffers: the reader clamps instead of failing -/

/-- Parsing entries with the cursor at or past the end of the buffer never
fails: every read clamps to the empty slice, so each remaining table record
decodes as the empty entry. -/
theorem parseEntries_past_end :
    ∀ (k : Nat) (data : List Nat) (p : Nat), data.length ≤ p →
      parseEntries ⟨data, p⟩ k = .ok (List.replicate k (⟨[], []⟩ : File)) := by
  intro k
  induction k with
  | zero => intro data p _; rfl
  | succ n ih =>
    intro data p hp
    have h0 : data.drop p = [] := List.drop_eq_nil_of_le hp
    have h4 : data.drop (p + 4) = [] := List.drop_eq_nil_of_le (by omega)
    have h8 : data.drop (p + 4 + 4) = [] := List.drop_eq_nil_of_le (by omega)
    have h12 : data.drop (p + 4 + 4 + 4) = [] := List.drop_eq_nil_of_le (by omega)
    have hrec := ih data (p + 4 + 4 + 4) (by omega)
    simp only [parseEntries, Reader.read_le, Reader.read_str, Reader.read_bytes,
      Reader.bytes_at, h0, h4, h8, h12, List.take_nil, List.drop_zero]
    simp only [leVal, utf8Decode?, utf8DecodeAux, List.length_nil]
    simp [hrec, List.replicate_succ]

/-- Claim C3 counterexample: a buffer truncated in the middle of the file
table (header announces 2 entries, only one record present, no content
region) decodes successfully instead of failing. -/
theorem C3_cex_truncated_decode_succeeds :
    parse_wak [0, 0, 0, 0, 2, 0, 0, 0, 41, 0, 0, 0, 0, 0, 0, 0,
      41, 0, 0, 0, 1, 0, 0, 0, 1, 0, 0, 0, 97] =
    .ok [⟨[97], []⟩, ⟨[], []⟩] := by rfl

/-- Claim C3 (amended): `Reader.read_le` never fails; it returns the
little-endian value of the at-most-`n` bytes remaining (the Python slice
clamps) and always advances the cursor. Consequently a buffer consisting of
just the 16-byte header that announces `k` entries decodes to `k` empty
entries instead of failing. -/
theorem C3_read_le_clamps :
    (∀ (data : List Nat) (p n : Nat),
      (Reader.mk data p).read_le n =
        (leVal ((data.drop p).take n), ⟨data, p + n⟩)) ∧
    (∀ k : Nat, k < 0x100 ^ 4 →
      parse_wak ([0, 0, 0, 0] ++ leBytes k 4 ++ [0, 0, 0, 0, 0, 0, 0, 0]) =
        .ok (List.replicate k (⟨[], []⟩ : File))) := by
  constructor
  · intro data p n; rfl
  · intro k hk
    set data : List Nat := [0, 0, 0, 0] ++ leBytes k 4 ++ [0, 0, 0, 0, 0, 0, 0, 0]
      with hdata
    have hlen : data.length = 16 := by simp [hdata, length_leBytes]
    have hd4 : data.drop 4 = leBytes k 4 ++ [0, 0, 0, 0, 0, 0, 0, 0] := by
      rw [hdata, List.append_assoc]
      exact List.drop_left' rfl
    have hsplit := drop_split hd4 (length_leBytes k 4)
    have h0 : data.take 4 = [0, 0, 0, 0] := by
      rw [hdata, List.append_assoc]
      exact List.take_left' rfl
    have hd8 : data.drop (4 + 4) = [0, 0, 0, 0, 0, 0, 0, 0] := hsplit.2
    have hd12 : data.drop 12 = [0, 0, 0, 0] := by
      have h := List.drop_drop 4 (4 + 4) data
      rw [hd8, show List.drop 4 ([0, 0, 0, 0, 0, 0, 0, 0] : List Nat) =
        [0, 0, 0, 0] from rfl] at h
      rw [show (12 : Nat) = 4 + 4 + 4 from rfl]
      exact h.symm
    have h12 : (data.drop 12).take 4 = [0, 0, 0, 0] := by
      rw [hd12]
      rfl
    rw [parse_wak_eq data h0 h12, hsplit.1, leVal_leBytes k 4 hk,
      parseEntries_past_end k data 16 (le_of_eq hlen)]

/-- Witness for the amended claim C3 at `k = 3`. -/
theorem C3_read_le_clamps_witness :
    parse_wak [0, 0, 0, 0, 3, 0, 0, 0, 0, 0, 0, 0, 0, 0, 0, 0] =
      .ok [⟨[], []⟩, ⟨[], []⟩, ⟨[], []⟩] := by
  have h := C3_read_le_clamps.2 3 (by norm_num)
  simpa [leBytes] using h

/-- Claim C4 counterexample: `bytes_at` clamps (no `OutOfRange` failure) and
decode returns an entry whose content range `[100, 105)` lies entirely past
the 29-byte buffer, with clamped (empty) content, instead of failing. -/
theorem C4_cex_out_of_range_entry :
    (Reader.mk [1, 2, 3] 0).bytes_at 2 5 = [3] ∧
    parse_wak [0, 0, 0, 0, 1, 0, 0, 0, 29, 0, 0, 0, 0, 0, 0, 0,
      100, 0, 0, 0, 5, 0, 0, 0, 1, 0, 0, 0, 97] = .ok [⟨[97], []⟩] := by
  constructor
  · rfl
  · rfl

/-- Claim C4 (amended): `Reader.bytes_at` never fails; it returns the
in-bounds portion of the requested slice, of length
`min count (buffer length - absolute offset)`. -/
theorem C4_bytes_at_clamped_length (data : List Nat) (p addr count : Nat) :
    ((Reader.mk data p).bytes_at addr count).length =
      min count (data.length - addr) := by
  simp [Reader.bytes_at]

/-- Claim C5: any buffer whose leading 4 magic bytes, or whose 4 magic bytes
at offsets 12..15, are not all zero fails to decode, with the corresponding
assertion error. -/
theorem C5_bad_magic_fails (data : List Nat)
    (h : data.take 4 ≠ [0, 0, 0, 0] ∨ (data.drop 12).take 4 ≠ [0, 0, 0, 0]) :
    parse_wak data = .error (.assertionError "header start") ∨
    parse_wak data = .error (.assertionError "header end") := by
  by_cases h0 : data.take 4 = [0, 0, 0, 0]
  · have h12 : (data.drop 12).take 4 ≠ [0, 0, 0, 0] := by tauto
    exact Or.inr (parse_wak_err_end data h0 h12)
  · exact Or.inl (parse_wak_err_start data h0)

/-- Witness for claim C5: a buffer with a nonzero first byte fails. -/
theorem C5_bad_magic_fails_witness :
    parse_wak [1, 0, 0, 0] = .error (.assertionError "header start") ∨
    parse_wak [1, 0, 0, 0] = .error (.assertionError "header end") :=
  C5_bad_magic_fails [1, 0, 0, 0] (Or.inl (by decide))

/-- Claim C9 counterexample: two buffers identical except in bytes 8..11
(the `content_start_offset` field) decode to different entry sequences,
because a table record's absolute content range can reach into the header.
Here the single entry has `addr = 8`, `size = 1`. -/
theorem C9_cex_content_depends_on_field :
    parse_wak [0, 0, 0, 0, 1, 0, 0, 0, 7, 0, 0, 0, 0, 0, 0, 0,
      8, 0, 0, 0, 1, 0, 0, 0, 0, 0, 0, 0] = .ok [⟨[], [7]⟩] ∧
    parse_wak [0, 0, 0, 0, 1, 0, 0, 0, 9, 0, 0, 0, 0, 0, 0, 0,
      8, 0, 0, 0, 1, 0, 0, 0, 0, 0, 0, 0] = .ok [⟨[], [9]⟩] ∧
    ([⟨[], [7]⟩] : List File) ≠ [⟨[], [9]⟩] := by
  refine ⟨by rfl, by rfl, by decide⟩

/-- Claim C1 (code bug): encoding the single entry with path "é" (code
point 233, a 2-byte UTF-8 character) and content [88] produces an archive
that decodes to content [169] — the second byte of the path's encoding —
because `save_wak` computes offsets from `len(path)` in characters while
the table stores the UTF-8 byte encoding. The round trip fails. -/
theorem C1_round_trip_fails_at_nonascii :
    save_wak [⟨[233], [88]⟩] =
      some [0, 0, 0, 0, 1, 0, 0, 0, 29, 0, 0, 0, 0, 0, 0, 0,
        29, 0, 0, 0, 1, 0, 0, 0, 2, 0, 0, 0, 195, 169, 88, 0] ∧
    parse_wak [0, 0, 0, 0, 1, 0, 0, 0, 29, 0, 0, 0, 0, 0, 0, 0,
        29, 0, 0, 0, 1, 0, 0, 0, 2, 0, 0, 0, 195, 169, 88, 0] =
      .ok [⟨[233], [169]⟩] ∧
    ([⟨[233], [169]⟩] : List File) ≠ [⟨[233], [88]⟩] := by
  refine ⟨by rfl, by rfl, by decide⟩

/-- Claim C2 (code bug): for the same single entry with path "é", the
`content_start_offset` field written by the encoder holds 29
(`16 + 12 + 1` with the character count of the path), while the table
actually occupies `16 + 12 + 2 = 30` bytes (`len(path.encode())`), which is
the value the spec's byte-length formula gives. -/
theorem C2_offset_uses_char_count :
    (save_wak [⟨[233], [88]⟩]).map (fun w => leVal ((w.drop 8).take 4)) =
      some 29 ∧
    16 + (12 + (utf8Encode [233]).length) = 30 := by
  refine ⟨by rfl, by rfl⟩

/-! The path comparator -/

theorem str_gt_nil_left (b : List Nat) : str_gt [] b = false := by
  cases b <;> rfl

theorem str_gt_cons_nil (a : Nat) (l : List Nat) : str_gt (a :: l) [] = true := rfl

/-- One-step characterization of `str_gt` on two nonempty strings: equal
heads recurse; otherwise an underscore head wins, and two plain distinct
heads compare by code point. -/
theorem str_gt_cons (a b : Nat) (l1 l2 : List Nat) :
    str_gt (a :: l1) (b :: l2) =
      if a = b then str_gt l1 l2
      else if b = 95 then false
      else if a = 95 then true
      else decide (b < a) := by
  by_cases hab : a = b
  · subst hab
    simp [str_gt]
  · by_cases hb : b = 95
    · subst hb
      have ha : ¬ a = 95 := hab
      simp [str_gt, hab, ha]
    · by_cases ha : a = 95
      · simp [str_gt, hab, hb, ha]
        exact Or.inl (fun h => hb h.symm)
      · simp [str_gt, hab, hb, ha, pyStrGt, pyStrLt, Ne.symm hab]

theorem str_gt_irrefl (a : List Nat) : str_gt a a = false := by
  induction a with
  | nil => rfl
  | cons x l ih => rw [str_gt_cons, if_pos rfl, ih]

theorem str_gt_asymm : ∀ a b : List Nat, str_gt a b = true → str_gt b a = false := by
  intro a
  induction a with
  | nil =>
    intro b h
    rw [str_gt_nil_left] at h
    exact absurd h (by simp)
  | cons a l1 ih =>
    intro b h
    cases b with
    | nil => exact str_gt_nil_left (a :: l1)
    | cons b l2 =>
      rw [str_gt_cons] at h
      rw [str_gt_cons]
      by_cases h1 : a = b
      · subst h1
        rw [if_pos rfl] at h
        rw [if_pos rfl]
        exact ih l2 h
      · rw [if_neg h1] at h
        rw [if_neg (Ne.symm h1)]
        by_cases hb : b = 95
        · rw [if_pos hb] at h
          exact absurd h (by simp)
        · rw [if_neg hb] at h
          by_cases ha : a = 95
          · rw [if_pos ha]
          · rw [if_neg ha] at h
            rw [if_neg ha, if_neg hb]
            have := of_decide_eq_true h
            simp
            omega

theorem str_gt_trans : ∀ a b c : List Nat,
    str_gt a b = true → str_gt b c = true → str_gt a c = true := by
  intro a
  induction a with
  | nil =>
    intro b c h
    rw [str_gt_nil_left] at h
    exact absurd h (by simp)
  | cons a l1 ih =>
    intro b c hab hbc
    cases b with
    | nil =>
      rw [str_gt_nil_left] at hbc
      exact absurd hbc (by simp)
    | cons b l2 =>
      cases c with
      | nil => exact str_gt_cons_nil a l1
      | cons c l3 =>
        rw [str_gt_cons] at hab hbc
        rw [str_gt_cons]
        by_cases h1 : a = b
        · subst h1
          rw [if_pos rfl] at hab
          by_cases h2 : a = c
          · subst h2
            rw [if_pos rfl] at hbc
            rw [if_pos rfl]
            exact ih l2 l3 hab hbc
          · rw [if_neg h2] at hbc
            rw [if_neg h2]
            exact hbc
        · rw [if_neg h1] at hab
          by_cases hb : b = 95
          · rw [if_pos hb] at hab
            exact absurd hab (by simp)
          · rw [if_neg hb] at hab
            by_cases h2 : b = c
            · subst h2
              rw [if_neg h1, if_neg hb]
              exact hab
            · rw [if_neg h2] at hbc
              by_cases hc : c = 95
              · rw [if_pos hc] at hbc
                exact absurd hbc (by simp)
              · rw [if_neg hc] at hbc
                rw [if_neg hb] at hbc
                have hcb : c < b := of_decide_eq_true hbc
                by_cases ha : a = 95
                · rw [if_neg (by omega), if_neg hc, if_pos ha]
                · rw [if_neg ha] at hab
                  have hba : b < a := of_decide_eq_true hab
                  rw [if_neg (by omega), if_neg hc, if_neg ha]
                  exact decide_eq_true (by omega)

theorem str_gt_total : ∀ a b : List Nat, a ≠ b → ¬ strPre a b → ¬ strPre b a →
    str_gt a b = true ∨ str_gt b a = true := by
  intro a
  induction a with
  | nil =>
    intro b _ hp1 _
    exact absurd (by simp [strPre]) hp1
  | cons a l1 ih =>
    intro b hne hp1 hp2
    cases b with
    | nil => exact absurd (by simp [strPre]) hp2
    | cons b l2 =>
      by_cases h1 : a = b
      · subst h1
        have hne' : l1 ≠ l2 := by
          intro h
          exact hne (by rw [h])
        have hp1' : ¬ strPre l1 l2 := by
          intro h
          exact hp1 (by simpa [strPre] using h)
        have hp2' : ¬ strPre l2 l1 := by
          intro h
          exact hp2 (by simpa [strPre] using h)
        rcases ih l2 hne' hp1' hp2' with h | h
        · left
          rw [str_gt_cons, if_pos rfl]
          exact h
        · right
          rw [str_gt_cons, if_pos rfl]
          exact h
      · by_cases hb : b = 95
        · right
          rw [str_gt_cons, if_neg (Ne.symm h1), if_neg (by omega), if_pos hb]
        · by_cases ha : a = 95
          · left
            rw [str_gt_cons, if_neg h1, if_neg hb, if_pos ha]
          · rcases Nat.lt_or_ge a b with h | h
            · right
              rw [str_gt_cons, if_neg (Ne.symm h1), if_neg ha, if_neg hb]
              exact decide_eq_true h
            · left
              rw [str_gt_cons, if_neg h1, if_neg hb, if_neg ha]
              exact decide_eq_true (by omega)

/-- Claim C6: `str_less` (that is, `str_gt` with its arguments swapped) is
irreflexive and transitive, and for distinct strings neither of which is a
prefix of the other, exactly one of `str_less x y`, `str_less y x` holds. -/
theorem C6_str_less_strict_order :
    (∀ x : List Nat, str_less x x = false) ∧
    (∀ x y z : List Nat, str_less x y = true → str_less y z = true →
      str_less x z = true) ∧
    (∀ x y : List Nat, x ≠ y → ¬ strPre x y → ¬ strPre y x →
      Xor' (str_less x y = true) (str_less y x = true)) := by
  refine ⟨fun x => str_gt_irrefl x, ?_, ?_⟩
  · intro x y z hxy hyz
    exact str_gt_trans z y x hyz hxy
  · intro x y hne hp1 hp2
    rcases str_gt_total x y hne hp1 hp2 with h | h
    · right
      refine ⟨h, ?_⟩
      rw [str_less, str_gt_asymm x y h]
      simp
    · left
      refine ⟨h, ?_⟩
      rw [str_less, str_gt_asymm y x h]
      simp

/-- Witness for claim C6: with x = "a", y = "b" (distinct, neither a prefix
of the other) exactly one direction of the comparator holds. -/
theorem C6_str_less_strict_order_witness :
    Xor' (str_less [97] [98] = true) (str_less [98] [97] = true) :=
  C6_str_less_strict_order.2.2 [97] [98] (by decide) (by decide) (by decide)

/-- At the first differing position, an underscore (95) beats any other
character, whatever came before it. -/
theorem str_gt_underscore (p s t : List Nat) (c : Nat) (hc : c ≠ 95) :
    str_gt (p ++ 95 :: s) (p ++ c :: t) = true := by
  induction p with
  | nil =>
    rw [List.nil_append, List.nil_append, str_gt_cons,
      if_neg (fun h => hc h.symm), if_neg hc, if_pos rfl]
  | cons a p ih =>
    rw [List.cons_append, List.cons_append, str_gt_cons, if_pos rfl]
    exact ih

/-- Claim C7 counterexample: the claim's side remark is false: the
underscore (code point 95) is NOT greater than 'b' (98) in plain code-point
order; plain Python comparison already places "_a" before "b". The
comparator outcome itself, `str_less "b" "_a"`, does hold. -/
theorem C7_cex_underscore_plain_order :
    str_less [98] [95, 97] = true ∧ ¬ ((95 : Nat) > 98) ∧
    pyStrLt [95, 97] [98] = true := by
  refine ⟨by rfl, by decide, by rfl⟩

/-- Claim C7 (amended): an underscore at the first position where the two
strings differ is greater than any other character there, at every
character position, not just the first; in particular
`str_less "b" "_a" = true`, even though the underscore (95) is LESS than
'b' (98) in plain code-point order. -/
theorem C7_underscore_rule :
    (∀ (p s t : List Nat) (c : Nat), c ≠ 95 →
      str_less (p ++ c :: t) (p ++ 95 :: s) = true) ∧
    str_less [98] [95, 97] = true ∧ (95 : Nat) < 98 :=
  ⟨fun p s t c hc => str_gt_underscore p s t c hc, by rfl, by decide⟩

/-- Witness for claim C7 at p = "a", c = 'b': "ab" sorts before "a_c". -/
theorem C7_underscore_rule_witness : str_less [97, 98] [97, 95, 99] = true :=
  C7_underscore_rule.1 [97] [99] [] 98 (by decide)

/-! Structure of the encoder output -/

theorem write_file_header_eq {w : Writer} {s : Nat} {f : File} {w' : Writer}
    (h : write_file_header w s f = some w') :
    s < 4294967296 ∧ f.content.length < 4294967296 ∧
      (∀ c ∈ f.path, validCp c) ∧ (utf8Encode f.path).length < 4294967296 ∧
      w' = ⟨w.data ++ recordBytes s f⟩ := by
  by_cases h1 : s < 4294967296
  · by_cases h2 : f.content.length < 4294967296
    · by_cases h3 : ∀ c ∈ f.path, validCp c
      · by_cases h4 : (utf8Encode f.path).length < 4294967296
        · refine ⟨h1, h2, h3, h4, ?_⟩
          have henc : encodeStr? f.path = some (utf8Encode f.path) := by
            unfold encodeStr?
            rw [if_pos h3]
          cases w'
          simp only [Writer.mk.injEq]
          simp [write_file_header, Writer.write_le, Writer.write_str,
            Writer.write_bytes, henc, h1, h2, h4] at h
          rw [← h]
          simp [recordBytes, List.append_assoc]
        · have henc : encodeStr? f.path = some (utf8Encode f.path) := by
            unfold encodeStr?
            rw [if_pos h3]
          simp [write_file_header, Writer.write_le, Writer.write_str,
            henc, h1, h2, h4] at h
      · have henc : encodeStr? f.path = none := by
          unfold encodeStr?
          rw [if_neg h3]
        simp [write_file_header, Writer.write_le, Writer.write_str,
          henc, h1, h2] at h
    · simp [write_file_header, Writer.write_le, h1, h2] at h
  · simp [write_file_header, Writer.write_le, h1] at h

theorem writeHeaders_eq : ∀ (fs : List File) (w : Writer) (s : Nat)
    (w' : Writer) (s' : Nat), writeHeaders w s fs = some (w', s') →
    w'.data = w.data ++ tableBytes fs s ∧
    (∀ a ∈ tableAddrs fs s, a < 4294967296) ∧
    (∀ f ∈ fs, f.content.length < 4294967296 ∧ (∀ c ∈ f.path, validCp c) ∧
      (utf8Encode f.path).length < 4294967296) := by
  intro fs
  induction fs with
  | nil =>
    intro w s w' s' h
    simp only [writeHeaders, Option.some.injEq, Prod.mk.injEq] at h
    simp [← h.1, tableBytes, tableAddrs]
  | cons f fs ih =>
    intro w s w' s' h
    simp only [writeHeaders] at h
    cases hw : write_file_header w s f with
    | none => rw [hw] at h; exact absurd h (by simp)
    | some w1 =>
      rw [hw] at h
      simp only [Option.bind_eq_bind, Option.some_bind] at h
      obtain ⟨hs, hlen, hpath, hplen, hw1⟩ := write_file_header_eq hw
      obtain ⟨hdata, haddr, hfile⟩ :=
        ih w1 (s + f.content.length + 1) w' s' h
      refine ⟨?_, ?_, ?_⟩
      · rw [hdata, hw1]
        simp [tableBytes, List.append_assoc]
      · intro a ha
        simp only [tableAddrs, List.mem_cons] at ha
        rcases ha with rfl | ha
        · exact hs
        · exact haddr a ha
      · intro g hg
        rcases List.mem_cons.mp hg with rfl | hg
        · exact ⟨hlen, hpath, hplen⟩
        · exact hfile g hg

theorem foldl_content : ∀ (fs : List File) (w : Writer),
    (fs.foldl write_file_content w).data = w.data ++ contentBytes fs := by
  intro fs
  induction fs with
  | nil => intro w; simp [contentBytes]
  | cons f fs ih =>
    intro w
    simp only [List.foldl_cons, ih]
    simp [write_file_content, Writer.write_bytes, contentBytes,
      List.append_assoc]

/-- Claim-independent structure theorem for the encoder: a successful
`save_wak` produces exactly header ++ table ++ content region, and the
success itself certifies every written quantity fits in a u32. -/
theorem save_wak_eq {files : List File} {out : List Nat}
    (h : save_wak files = some out) :
    out = [0, 0, 0, 0] ++ leBytes files.length 4 ++
      leBytes (startOff files) 4 ++ [0, 0, 0, 0] ++
      tableBytes files (startOff files) ++ contentBytes files ∧
    files.length < 4294967296 ∧ startOff files < 4294967296 ∧
    (∀ a ∈ tableAddrs files (startOff files), a < 4294967296) ∧
    (∀ f ∈ files, f.content.length < 4294967296 ∧ (∀ c ∈ f.path, validCp c) ∧
      (utf8Encode f.path).length < 4294967296) := by
  by_cases h1 : files.length < 4294967296
  · by_cases h2 : startOff files < 4294967296
    · simp only [save_wak, Option.bind_eq_bind] at h
      rw [show ((⟨[]⟩ : Writer).write_bytes [0, 0, 0, 0] none).write_le
          files.length 4 none = some ((((⟨[]⟩ : Writer).write_bytes
          [0, 0, 0, 0] none)).write_bytes (leBytes files.length 4) none)
          from by simp [Writer.write_le, h1]] at h
      rw [Option.some_bind] at h
      rw [show ((((⟨[]⟩ : Writer).write_bytes [0, 0, 0, 0] none)).write_bytes
          (leBytes files.length 4) none).write_le (startOff files) 4 none =
          some (((((⟨[]⟩ : Writer).write_bytes [0, 0, 0, 0]
          none)).write_bytes (leBytes files.length 4) none).write_bytes
          (leBytes (startOff files) 4) none)
          from by simp [Writer.write_le, h2]] at h
      rw [Option.some_bind] at h
      rw [Option.bind_eq_some] at h
      obtain ⟨p, hw, hp⟩ := h
      obtain ⟨hdata, haddr, hfile⟩ := writeHeaders_eq files _ _ p.1 p.2 hw
      simp only [Option.some.injEq] at hp
      refine ⟨?_, h1, h2, haddr, hfile⟩
      rw [← hp, foldl_content, hdata]
      simp [Writer.write_bytes, List.append_assoc]
    · simp [save_wak, Writer.write_le, h1, h2] at h
  · simp [save_wak, Writer.write_le, h1] at h

theorem leVal_leBytes4 {v : Nat} (h : v < 4294967296) :
    leVal (leBytes v 4) = v :=
  leVal_leBytes v 4 (by simpa using h)

/-! UTF-8 on ASCII strings -/

theorem utf8Encode_ascii : ∀ s : List Nat, (∀ c ∈ s, c < 0x80) →
    utf8Encode s = s := by
  intro s
  induction s with
  | nil => intro _; rfl
  | cons c l ih =>
    intro h
    rw [show utf8Encode (c :: l) = utf8EncodeCp c ++ utf8Encode l from by
      simp [utf8Encode]]
    rw [show utf8EncodeCp c = [c] from by
      simp [utf8EncodeCp, h c (List.mem_cons_self c l)]]
    rw [ih (fun x hx => h x (List.mem_cons_of_mem c hx))]
    rfl

theorem utf8DecodeAux_ascii : ∀ (fuel : Nat) (s : List Nat),
    (∀ c ∈ s, c < 0x80) → s.length ≤ fuel → utf8DecodeAux fuel s = some s := by
  intro fuel
  induction fuel with
  | zero =>
    intro s h hl
    cases s with
    | nil => rfl
    | cons c l => simp at hl
  | succ n ih =>
    intro s h hl
    cases s with
    | nil => rfl
    | cons b rest =>
      have hb : b < 0x80 := h b (List.mem_cons_self b rest)
      have hrest := ih rest (fun x hx => h x (List.mem_cons_of_mem b hx))
        (by simp at hl; omega)
      simp [utf8DecodeAux, utf8DecodeCp?, hb, hrest]

theorem utf8Decode?_ascii {s : List Nat} (h : ∀ c ∈ s, c < 0x80) :
    utf8Decode? s = some s :=
  utf8DecodeAux_ascii s.length s h (le_refl _)

/-! Decoding a well-formed table -/

/-- Walking a table laid out by the running-offset recurrence: the parser
recovers each path and resolves each content as the absolute slice at the
recorded address. -/
theorem parseEntries_table : ∀ (fs : List File) (data : List Nat)
    (p s : Nat) (rest : List Nat),
    data.drop p = tableBytes fs s ++ rest →
    (∀ a ∈ tableAddrs fs s, a < 4294967296) →
    (∀ f ∈ fs, f.content.length < 4294967296 ∧
      (utf8Encode f.path).length < 4294967296 ∧
      utf8Decode? (utf8Encode f.path) = some f.path) →
    parseEntries ⟨data, p⟩ fs.length = .ok (entriesFrom data fs s) := by
  intro fs
  induction fs with
  | nil => intro data p s rest h ha hf; rfl
  | cons f fs ih =>
    intro data p s rest h ha hf
    obtain ⟨hfl, hfpl, hfdec⟩ := hf f (List.mem_cons_self f fs)
    have hs : s < 4294967296 := ha s (by simp [tableAddrs])
    have h0 : data.drop p = leBytes s 4 ++ (leBytes f.content.length 4 ++
        (leBytes (utf8Encode f.path).length 4 ++ (utf8Encode f.path ++
          (tableBytes fs (s + f.content.length + 1) ++ rest)))) := by
      rw [h]
      simp [tableBytes, recordBytes, List.append_assoc]
    obtain ⟨t1, d1⟩ := drop_split h0 (length_leBytes s 4)
    obtain ⟨t2, d2⟩ := drop_split d1 (length_leBytes f.content.length 4)
    obtain ⟨t3, d3⟩ :=
      drop_split d2 (length_leBytes (utf8Encode f.path).length 4)
    obtain ⟨t4, d4⟩ := drop_split d3 (rfl :
      (utf8Encode f.path).length = (utf8Encode f.path).length)
    have hrec := ih data (p + 4 + 4 + 4 + (utf8Encode f.path).length)
      (s + f.content.length + 1) rest d4
      (fun a haa => ha a (by simp [tableAddrs]; exact Or.inr haa))
      (fun g hg => hf g (List.mem_cons_of_mem f hg))
    simp only [List.length_cons, parseEntries, Reader.read_le,
      Reader.read_bytes, Reader.read_str, Reader.bytes_at]
    rw [t1, leVal_leBytes4 hs, t2, leVal_leBytes4 hfl, t3,
      leVal_leBytes4 hfpl, t4, hfdec]
    simp [hrec, entriesFrom]

/-- When the buffer from offset `s` on is the content region laid out for
`fs`, the resolved slices are exactly the original contents. -/
theorem entriesFrom_content : ∀ (fs : List File) (data : List Nat)
    (s : Nat) (rest : List Nat),
    data.drop s = contentBytes fs ++ rest → entriesFrom data fs s = fs := by
  intro fs
  induction fs with
  | nil => intro data s rest _; rfl
  | cons f fs ih =>
    intro data s rest h
    have h0 : data.drop s = f.content ++ ([0] ++ (contentBytes fs ++ rest)) := by
      rw [h]
      simp [contentBytes, List.append_assoc]
    obtain ⟨t1, d1⟩ := drop_split h0 (rfl : f.content.length = f.content.length)
    obtain ⟨t2, d2⟩ := drop_split d1 (rfl : ([0] : List Nat).length = 1)
    rw [show entriesFrom data (f :: fs) s =
      ⟨f.path, (data.drop s).take f.content.length⟩ ::
        entriesFrom data fs (s + f.content.length + 1) from rfl]
    rw [t1, ih data (s + f.content.length + 1) rest d2]

theorem length_tableBytes : ∀ (fs : List File) (s : Nat),
    (tableBytes fs s).length =
      (fs.map (fun f => 12 + (utf8Encode f.path).length)).sum := by
  intro fs
  induction fs with
  | nil => intro s; rfl
  | cons f fs ih =>
    intro s
    simp [tableBytes, recordBytes, length_leBytes, ih]
    omega

/-- The core round trip: an archive successfully produced by `save_wak`
from all-ASCII paths decodes back to exactly the input entries. -/
theorem round_trip_core {files : List File} {out : List Nat}
    (hascii : ∀ f ∈ files, ∀ c ∈ f.path, c < 0x80)
    (h : save_wak files = some out) :
    parse_wak out = .ok files := by
  obtain ⟨hout, hn, hS, haddr, hfile⟩ := save_wak_eq h
  have e0 : out.drop 0 = [0, 0, 0, 0] ++ (leBytes files.length 4 ++
      (leBytes (startOff files) 4 ++ ([0, 0, 0, 0] ++
        (tableBytes files (startOff files) ++ contentBytes files)))) := by
    rw [List.drop_zero, hout]
    simp [List.append_assoc]
  obtain ⟨t0, d4⟩ := drop_split e0
    (show ([0, 0, 0, 0] : List Nat).length = 4 from rfl)
  norm_num at d4
  obtain ⟨t4, d8⟩ := drop_split d4 (length_leBytes files.length 4)
  norm_num at d8
  obtain ⟨t8, d12⟩ := drop_split d8 (length_leBytes (startOff files) 4)
  norm_num at d12
  obtain ⟨t12, d16⟩ := drop_split d12
    (show ([0, 0, 0, 0] : List Nat).length = 4 from rfl)
  norm_num at d16
  have h0 : out.take 4 = [0, 0, 0, 0] := by simpa using t0
  have h12 : (out.drop 12).take 4 = [0, 0, 0, 0] := t12
  have hdecs : ∀ f ∈ files, f.content.length < 4294967296 ∧
      (utf8Encode f.path).length < 4294967296 ∧
      utf8Decode? (utf8Encode f.path) = some f.path := by
    intro f hf
    obtain ⟨hl, _, hpl⟩ := hfile f hf
    have hasc := hascii f hf
    refine ⟨hl, hpl, ?_⟩
    rw [utf8Encode_ascii f.path hasc]
    exact utf8Decode?_ascii hasc
  have hcont : out.drop (startOff files) = contentBytes files ++ [] := by
    have hlen16 : ((([0, 0, 0, 0] ++ leBytes files.length 4 ++
        leBytes (startOff files) 4 ++ [0, 0, 0, 0]) ++
        tableBytes files (startOff files)) : List Nat).length =
        startOff files := by
      have hmap : files.map (fun f => 12 + (utf8Encode f.path).length) =
          files.map (fun f => 12 + f.path.length) :=
        List.map_congr_left (fun f hf => by
          rw [utf8Encode_ascii f.path (hascii f hf)])
      simp [length_leBytes, length_tableBytes, hmap, startOff]
      omega
    have hgrp : out = (([0, 0, 0, 0] ++ leBytes files.length 4 ++
        leBytes (startOff files) 4 ++ [0, 0, 0, 0]) ++
        tableBytes files (startOff files)) ++ contentBytes files := by
      rw [hout]
    rw [List.append_nil, hgrp]
    exact List.drop_left' hlen16
  rw [parse_wak_eq out h0 h12, t4, leVal_leBytes4 hn]
  rw [parseEntries_table files out 16 (startOff files) (contentBytes files)
    d16 haddr hdecs]
  rw [entriesFrom_content files out (startOff files) [] hcont]

/-! The encoder succeeds whenever everything fits in a u32 -/

theorem write_file_header_some (w : Writer) (s : Nat) (f : File)
    (h1 : s < 4294967296) (h2 : f.content.length < 4294967296)
    (h3 : ∀ c ∈ f.path, validCp c)
    (h4 : (utf8Encode f.path).length < 4294967296) :
    write_file_header w s f = some ⟨w.data ++ recordBytes s f⟩ := by
  have henc : encodeStr? f.path = some (utf8Encode f.path) := by
    unfold encodeStr?
    rw [if_pos h3]
  simp [write_file_header, Writer.write_le, Writer.write_str,
    Writer.write_bytes, henc, h1, h2, h4, recordBytes, List.append_assoc]

theorem writeHeaders_some : ∀ (fs : List File) (w : Writer) (s : Nat),
    (∀ a ∈ tableAddrs fs s, a < 4294967296) →
    (∀ f ∈ fs, f.content.length < 4294967296 ∧ (∀ c ∈ f.path, validCp c) ∧
      (utf8Encode f.path).length < 4294967296) →
    writeHeaders w s fs = some (⟨w.data ++ tableBytes fs s⟩,
      s + (fs.map (fun f => f.content.length + 1)).sum) := by
  intro fs
  induction fs with
  | nil => intro w s _ _; simp [writeHeaders, tableBytes]
  | cons f fs ih =>
    intro w s ha hf
    have hs : s < 4294967296 := ha s (by simp [tableAddrs])
    obtain ⟨hfl, hfv, hfpl⟩ := hf f (List.mem_cons_self f fs)
    rw [writeHeaders]
    rw [write_file_header_some w s f hs hfl hfv hfpl, Option.bind_eq_bind,
      Option.some_bind]
    rw [ih ⟨w.data ++ recordBytes s f⟩ (s + f.content.length + 1)
      (fun a haa => ha a (by simp [tableAddrs]; exact Or.inr haa))
      (fun g hg => hf g (List.mem_cons_of_mem f hg))]
    simp [tableBytes, List.append_assoc]
    omega

theorem save_wak_some (files : List File)
    (hn : files.length < 4294967296) (hS : startOff files < 4294967296)
    (haddr : ∀ a ∈ tableAddrs files (startOff files), a < 4294967296)
    (hfile : ∀ f ∈ files, f.content.length < 4294967296 ∧
      (∀ c ∈ f.path, validCp c) ∧
      (utf8Encode f.path).length < 4294967296) :
    save_wak files = some ([0, 0, 0, 0] ++ leBytes files.length 4 ++
      leBytes (startOff files) 4 ++ [0, 0, 0, 0] ++
      tableBytes files (startOff files) ++ contentBytes files) := by
  simp only [save_wak, Option.bind_eq_bind]
  rw [show ((⟨[]⟩ : Writer).write_bytes [0, 0, 0, 0] none).write_le
      files.length 4 none = some ((((⟨[]⟩ : Writer).write_bytes
      [0, 0, 0, 0] none)).write_bytes (leBytes files.length 4) none)
      from by simp [Writer.write_le, hn]]
  rw [Option.some_bind]
  rw [show ((((⟨[]⟩ : Writer).write_bytes [0, 0, 0, 0] none)).write_bytes
      (leBytes files.length 4) none).write_le (startOff files) 4 none =
      some (((((⟨[]⟩ : Writer).write_bytes [0, 0, 0, 0]
      none)).write_bytes (leBytes files.length 4) none).write_bytes
      (leBytes (startOff files) 4) none)
      from by simp [Writer.write_le, hS]]
  rw [Option.some_bind]
  rw [writeHeaders_some files _ (startOff files) haddr hfile]
  rw [Option.some_bind, Option.some.injEq, foldl_content]
  simp [Writer.write_bytes, List.append_assoc]

/-- Claim C10: for all-ASCII paths, with the entry count, the path lengths,
the content sizes and all computed offsets (the content start and every
table address) below 2^32, encoding succeeds and decoding the result gives
back exactly the input entries, with no uniqueness assumption on paths. -/
theorem C10_ascii_round_trip (files : List File)
    (hascii : ∀ f ∈ files, ∀ c ∈ f.path, c < 0x80)
    (hcount : files.length < 4294967296)
    (hpaths : ∀ f ∈ files, f.path.length < 4294967296)
    (hsizes : ∀ f ∈ files, f.content.length < 4294967296)
    (hstart : startOff files < 4294967296)
    (hoffsets : ∀ a ∈ tableAddrs files (startOff files), a < 4294967296) :
    ∃ out, save_wak files = some out ∧ parse_wak out = .ok files := by
  have hfile : ∀ f ∈ files, f.content.length < 4294967296 ∧
      (∀ c ∈ f.path, validCp c) ∧
      (utf8Encode f.path).length < 4294967296 := by
    intro f hf
    refine ⟨hsizes f hf, ?_, ?_⟩
    · intro c hc
      have := hascii f hf c hc
      exact Or.inl (by omega)
    · rw [utf8Encode_ascii f.path (hascii f hf)]
      exact hpaths f hf
  have hsave := save_wak_some files hcount hstart hoffsets hfile
  exact ⟨_, hsave, round_trip_core hascii hsave⟩

/-- Witness for claim C10 at two concrete entries (one empty path, one
empty content). -/
theorem C10_ascii_round_trip_witness :
    ∃ out, save_wak [⟨[97], [10, 20]⟩, ⟨[], []⟩] = some out ∧
      parse_wak out = .ok [⟨[97], [10, 20]⟩, ⟨[], []⟩] :=
  C10_ascii_round_trip [⟨[97], [10, 20]⟩, ⟨[], []⟩] (by decide) (by decide)
    (by decide) (by decide) (by decide) (by decide)

/-! Monotonicity of the table addresses -/

theorem tableAddrs_ge : ∀ (fs : List File) (s : Nat),
    ∀ a ∈ tableAddrs fs s, s ≤ a := by
  intro fs
  induction fs with
  | nil => intro s a ha; simp [tableAddrs] at ha
  | cons f fs ih =>
    intro s a ha
    simp only [tableAddrs, List.mem_cons] at ha
    rcases ha with rfl | ha
    · exact le_refl a
    · have := ih (s + f.content.length + 1) a ha
      omega

theorem tableAddrs_pairwise : ∀ (fs : List File) (s : Nat),
    List.Pairwise (· < ·) (tableAddrs fs s) := by
  intro fs
  induction fs with
  | nil => intro s; simp [tableAddrs]
  | cons f fs ih =>
    intro s
    rw [show tableAddrs (f :: fs) s =
      s :: tableAddrs fs (s + f.content.length + 1) from rfl]
    rw [List.pairwise_cons]
    refine ⟨?_, ih (s + f.content.length + 1)⟩
    intro a ha
    have := tableAddrs_ge fs (s + f.content.length + 1) a ha
    omega

theorem tableAddrs_getD : ∀ (fs : List File) (s i : Nat), i + 1 < fs.length →
    (tableAddrs fs s).getD (i + 1) 0 =
      (tableAddrs fs s).getD i 0 + (fs.getD i ⟨[], []⟩).content.length + 1 := by
  intro fs
  induction fs with
  | nil => intro s i h; simp at h
  | cons f fs ih =>
    intro s i h
    cases i with
    | zero =>
      cases fs with
      | nil => simp at h
      | cons g gs => simp [tableAddrs]
    | succ j =>
      have hj : j + 1 < fs.length := by
        simp at h
        omega
      simp only [tableAddrs, List.getD_cons_succ, List.getD_cons_zero]
      rw [ih (s + f.content.length + 1) j hj]

theorem tableAddrs_zip_ranges : ∀ (fs : List File) (s : Nat),
    List.Pairwise (fun q1 q2 => q1.1 + q1.2 < q2.1)
      ((tableAddrs fs s).zip (fs.map (fun f => f.content.length))) := by
  intro fs
  induction fs with
  | nil => intro s; simp [tableAddrs]
  | cons f fs ih =>
    intro s
    rw [show tableAddrs (f :: fs) s =
      s :: tableAddrs fs (s + f.content.length + 1) from rfl]
    rw [List.map_cons, List.zip_cons_cons, List.pairwise_cons]
    refine ⟨?_, ih (s + f.content.length + 1)⟩
    intro q hq
    obtain ⟨a, b⟩ := q
    obtain ⟨ha, _⟩ := List.of_mem_zip hq
    have := tableAddrs_ge fs (s + f.content.length + 1) a ha
    simp only []
    omega

theorem tableBytes_zip : ∀ (fs : List File) (s : Nat),
    tableBytes fs s = ((fs.zip (tableAddrs fs s)).map
      (fun q => recordBytes q.2 q.1)).flatten := by
  intro fs
  induction fs with
  | nil => intro s; rfl
  | cons f fs ih =>
    intro s
    rw [show tableAddrs (f :: fs) s =
      s :: tableAddrs fs (s + f.content.length + 1) from rfl]
    rw [List.zip_cons_cons, List.map_cons, List.flatten_cons]
    rw [show tableBytes (f :: fs) s =
      recordBytes s f ++ tableBytes fs (s + f.content.length + 1) from rfl]
    rw [ih (s + f.content.length + 1)]

theorem save_wak_drop16 {files : List File} {out : List Nat}
    (h : save_wak files = some out) :
    out.drop 16 = tableBytes files (startOff files) ++ contentBytes files := by
  obtain ⟨hout, _, _, _, _⟩ := save_wak_eq h
  have hgrp : out = ([0, 0, 0, 0] ++ leBytes files.length 4 ++
      leBytes (startOff files) 4 ++ [0, 0, 0, 0]) ++
      (tableBytes files (startOff files) ++ contentBytes files) := by
    rw [hout]
    simp [List.append_assoc]
  rw [hgrp]
  exact List.drop_left' (by simp [length_leBytes])

/-- Claim C8: in every archive `save_wak` produces, the table region embeds
the running-offset address sequence `tableAddrs` (each address below 2^32,
hence read back verbatim by the decoder's 4-byte little-endian read); these
addresses are strictly increasing, each one is the previous address plus
the previous content size plus 1 (the padding byte), and the content ranges
`[addr, addr + size)` are pairwise disjoint. -/
theorem C8_addrs_monotone (files : List File) (out : List Nat)
    (h : save_wak files = some out) :
    out.drop 16 = tableBytes files (startOff files) ++ contentBytes files ∧
    tableBytes files (startOff files) =
      ((files.zip (tableAddrs files (startOff files))).map
        (fun q => recordBytes q.2 q.1)).flatten ∧
    (∀ a ∈ tableAddrs files (startOff files), a < 4294967296) ∧
    List.Pairwise (· < ·) (tableAddrs files (startOff files)) ∧
    (∀ i, i + 1 < files.length →
      (tableAddrs files (startOff files)).getD (i + 1) 0 =
        (tableAddrs files (startOff files)).getD i 0 +
          (files.getD i ⟨[], []⟩).content.length + 1) ∧
    List.Pairwise (fun q1 q2 => q1.1 + q1.2 < q2.1)
      ((tableAddrs files (startOff files)).zip
        (files.map (fun f => f.content.length))) := by
  obtain ⟨_, _, _, haddr, _⟩ := save_wak_eq h
  exact ⟨save_wak_drop16 h, tableBytes_zip files _, haddr,
    tableAddrs_pairwise files _, fun i hi => tableAddrs_getD files _ i hi,
    tableAddrs_zip_ranges files _⟩

/-- Witness for claim C8 at a concrete two-entry archive. -/
theorem C8_addrs_monotone_witness :
    List.Pairwise (· < ·) (tableAddrs [⟨[97], [10, 20]⟩, ⟨[], []⟩]
      (startOff [⟨[97], [10, 20]⟩, ⟨[], []⟩])) :=
  (C8_addrs_monotone [⟨[97], [10, 20]⟩, ⟨[], []⟩]
    ((save_wak [⟨[97], [10, 20]⟩, ⟨[], []⟩]).getD []) (by rfl)).2.2.2.1

/-! The entry loop only depends on the buffer from the cursor on,
except through the absolute content slices -/

/-- Two buffers that agree from position `p` on produce entry sequences
with the same error behaviour and the same paths (contents may differ,
since they are resolved by absolute addresses anywhere in the buffer). -/
theorem parseEntries_paths : ∀ (k : Nat) (d1 d2 : List Nat) (p : Nat),
    d1.drop p = d2.drop p →
    (parseEntries ⟨d1, p⟩ k).map (List.map File.path) =
      (parseEntries ⟨d2, p⟩ k).map (List.map File.path) := by
  intro k
  induction k with
  | zero => intro d1 d2 p _; rfl
  | succ n ih =>
    intro d1 d2 p hdp
    have hq : ∀ q, p ≤ q → d1.drop q = d2.drop q := by
      intro q hpq
      have e : q = p + (q - p) := by omega
      rw [e, ← List.drop_drop, ← List.drop_drop, hdp]
    have r1 : (d1.drop p).take 4 = (d2.drop p).take 4 := by rw [hdp]
    have r2 : (d1.drop (p + 4)).take 4 = (d2.drop (p + 4)).take 4 := by
      rw [hq (p + 4) (by omega)]
    have r3 : (d1.drop (p + 4 + 4)).take 4 = (d2.drop (p + 4 + 4)).take 4 := by
      rw [hq (p + 4 + 4) (by omega)]
    have r4 : ∀ L, (d1.drop (p + 4 + 4 + 4)).take L =
        (d2.drop (p + 4 + 4 + 4)).take L := by
      intro L
      rw [hq (p + 4 + 4 + 4) (by omega)]
    simp only [parseEntries, Reader.read_le, Reader.read_bytes,
      Reader.read_str, Reader.bytes_at]
    rw [r1, r2, r3, r4]
    cases hu : utf8Decode? ((d2.drop (p + 4 + 4 + 4)).take
        (leVal ((d2.drop (p + 4 + 4)).take 4))) with
    | none => rfl
    | some path =>
      have hrec := ih d1 d2
        (p + 4 + 4 + 4 + leVal ((d2.drop (p + 4 + 4)).take 4))
        (hq _ (by omega))
      cases hr1 : parseEntries
          ⟨d1, p + 4 + 4 + 4 + leVal ((d2.drop (p + 4 + 4)).take 4)⟩ n with
      | error e1 =>
        cases hr2 : parseEntries
            ⟨d2, p + 4 + 4 + 4 + leVal ((d2.drop (p + 4 + 4)).take 4)⟩ n with
        | error e2 =>
          rw [hr1, hr2] at hrec
          simp only [Except.map, Except.error.injEq] at hrec
          simp [hr1, hr2, hrec, Except.map]
        | ok l2 =>
          rw [hr1, hr2] at hrec
          simp [Except.map] at hrec
      | ok l1 =>
        cases hr2 : parseEntries
            ⟨d2, p + 4 + 4 + 4 + leVal ((d2.drop (p + 4 + 4)).take 4)⟩ n with
        | error e2 =>
          rw [hr1, hr2] at hrec
          simp [Except.map] at hrec
        | ok l2 =>
          rw [hr1, hr2] at hrec
          simp only [Except.map, Except.ok.injEq] at hrec
          simp [hr1, hr2, Except.map, hrec]

/-- Claim C9 (amended): for buffers identical outside bytes 8..11, decode
fails identically or yields the same number of entries with the same paths
in the same order — the `content_start_offset` value is never used; only
the entry contents can differ, through absolute content ranges overlapping
bytes 8..11. -/
theorem C9_paths_ignore_field (a b c d : List Nat)
    (ha : a.length = 8) (hb : b.length = 4) (hc : c.length = 4) :
    (parse_wak (a ++ b ++ d)).map (List.map File.path) =
      (parse_wak (a ++ c ++ d)).map (List.map File.path) := by
  have t4b : (a ++ b ++ d).take 4 = a.take 4 := by
    rw [List.append_assoc]
    exact List.take_append_of_le_length (by omega)
  have t4c : (a ++ c ++ d).take 4 = a.take 4 := by
    rw [List.append_assoc]
    exact List.take_append_of_le_length (by omega)
  have d12b : (a ++ b ++ d).drop 12 = d :=
    List.drop_left' (by rw [List.length_append, ha, hb])
  have d12c : (a ++ c ++ d).drop 12 = d :=
    List.drop_left' (by rw [List.length_append, ha, hc])
  by_cases h0 : a.take 4 = [0, 0, 0, 0]
  · by_cases h12 : d.take 4 = [0, 0, 0, 0]
    · have hb0 : (a ++ b ++ d).take 4 = [0, 0, 0, 0] := by rw [t4b, h0]
      have hc0 : (a ++ c ++ d).take 4 = [0, 0, 0, 0] := by rw [t4c, h0]
      have hb12 : ((a ++ b ++ d).drop 12).take 4 = [0, 0, 0, 0] := by
        rw [d12b, h12]
      have hc12 : ((a ++ c ++ d).drop 12).take 4 = [0, 0, 0, 0] := by
        rw [d12c, h12]
      rw [parse_wak_eq _ hb0 hb12, parse_wak_eq _ hc0 hc12]
      have hcount : ((a ++ b ++ d).drop 4).take 4 =
          ((a ++ c ++ d).drop 4).take 4 := by
        have e1 : (a ++ b ++ d).drop 4 = a.drop 4 ++ (b ++ d) := by
          rw [List.append_assoc]
          exact List.drop_append_of_le_length (by omega)
        have e2 : (a ++ c ++ d).drop 4 = a.drop 4 ++ (c ++ d) := by
          rw [List.append_assoc]
          exact List.drop_append_of_le_length (by omega)
        rw [e1, e2, List.take_append_of_le_length (by
          rw [List.length_drop, ha]), List.take_append_of_le_length (by
          rw [List.length_drop, ha])]
      rw [hcount]
      have h16 : (a ++ b ++ d).drop 16 = (a ++ c ++ d).drop 16 := by
        have e1 : (a ++ b ++ d).drop 16 = ((a ++ b ++ d).drop 12).drop 4 := by
          rw [List.drop_drop]
        have e2 : (a ++ c ++ d).drop 16 = ((a ++ c ++ d).drop 12).drop 4 := by
          rw [List.drop_drop]
        rw [e1, e2, d12b, d12c]
      exact parseEntries_paths _ _ _ 16 h16
    · have hb12 : ((a ++ b ++ d).drop 12).take 4 ≠ [0, 0, 0, 0] := by
        rw [d12b]
        exact h12
      have hc12 : ((a ++ c ++ d).drop 12).take 4 ≠ [0, 0, 0, 0] := by
        rw [d12c]
        exact h12
      rw [parse_wak_err_end _ (by rw [t4b, h0]) hb12,
        parse_wak_err_end _ (by rw [t4c, h0]) hc12]
  · rw [parse_wak_err_start _ (by rw [t4b]; exact h0),
      parse_wak_err_start _ (by rw [t4c]; exact h0)]

/-- Witness for the amended claim C9 at the concrete counterexample
buffers: same paths even though the contents differ. -/
theorem C9_paths_ignore_field_witness :
    (parse_wak ([0, 0, 0, 0, 1, 0, 0, 0] ++ [7, 0, 0, 0] ++
        [0, 0, 0, 0, 8, 0, 0, 0, 1, 0, 0, 0, 0, 0, 0, 0])).map
      (List.map File.path) =
    (parse_wak ([0, 0, 0, 0, 1, 0, 0, 0] ++ [9, 0, 0, 0] ++
        [0, 0, 0, 0, 8, 0, 0, 0, 1, 0, 0, 0, 0, 0, 0, 0])).map
      (List.map File.path) :=
  C9_paths_ignore_field [0, 0, 0, 0, 1, 0, 0, 0] [7, 0, 0, 0] [9, 0, 0, 0]
    [0, 0, 0, 0, 8, 0, 0, 0, 1, 0, 0, 0, 0, 0, 0, 0]
    (by rfl) (by rfl) (by rfl)

end Wak
